import Mathlib

/-!
Verification of the two scripts in this repository.

* `fix-server-imports.py` (the Import Rewriter): walks a directory tree,
  applies an ordered list of textual substitutions to every `.rs` file and
  rewrites changed files in place, counting them.
* `test-direct-mcp.py` (the Protocol Smoke-Tester): spawns a subprocess and
  speaks three newline-delimited JSON-RPC messages over its stdin/stdout.

File contents are modelled as `List Char`.  Every pattern in the rewriter's
rule list is a regular expression whose only metacharacters are the escaped
braces in raw strings (all other characters are literals), so
`re.sub(pattern, replacement, content)` coincides with literal leftmost
replace-all, which `replaceAll` below implements.
-/

set_option maxRecDepth 100000

namespace ImportRewriter

/-- Literal leftmost non-overlapping replace-all, the semantics of Python's
`re.sub(p, r, s)` for a pattern `p` that is a nonempty literal string: scan
`s` left to right; whenever `p` is a prefix of the rest, emit `r` and resume
after that occurrence (the emitted replacement is not rescanned); otherwise
copy one character.  (For `p = []` this returns `s` unchanged; the rewriter's
patterns are all nonempty, so that case is never exercised.) -/
def replaceAllF (p r : List Char) : Nat → List Char → List Char
  | 0, s => s
  | fuel + 1, s =>
    if p ≠ [] ∧ p <+: s then
      r ++ replaceAllF p r fuel (s.drop p.length)
    else
      match s with
      | [] => []
      | c :: s' => c :: replaceAllF p r fuel s'

def replaceAll (p r s : List Char) : List Char :=
  replaceAllF p r s.length s

theorem replaceAllF_nil (p r : List Char) : ∀ fuel, replaceAllF p r fuel [] = [] := by
  intro fuel
  cases fuel with
  | zero => rfl
  | succ n =>
    unfold replaceAllF
    rw [if_neg]
    rintro ⟨hp, hpre⟩
    exact hp (List.prefix_nil.mp hpre)

/-- The fuel argument of `replaceAllF` is irrelevant as long as it is at
least the length of the string being scanned (a match consumes at least one
character, a non-match exactly one). -/
theorem replaceAllF_congr (p r : List Char) :
    ∀ fuel : Nat, ∀ s : List Char, ∀ fuel' : Nat, s.length ≤ fuel → s.length ≤ fuel' →
      replaceAllF p r fuel s = replaceAllF p r fuel' s := by
  intro fuel
  induction fuel with
  | zero =>
    intro s fuel' h1 _
    have hs : s = [] := List.length_eq_zero.mp (Nat.le_zero.mp h1)
    subst hs
    rw [replaceAllF_nil, replaceAllF_nil]
  | succ n ih =>
    intro s fuel' h1 h2
    cases s with
    | nil => rw [replaceAllF_nil, replaceAllF_nil]
    | cons c s' =>
      cases fuel' with
      | zero => simp at h2
      | succ m =>
        unfold replaceAllF
        by_cases hm : p ≠ [] ∧ p <+: (c :: s')
        · rw [if_pos hm, if_pos hm]
          have hp1 : 0 < p.length := List.length_pos.mpr hm.1
          have hple := hm.2.length_le
          simp only [List.length_cons] at h1 h2
          have hlen : ((c :: s').drop p.length).length ≤ n := by
            simp only [List.length_drop, List.length_cons]
            omega
          have hlen' : ((c :: s').drop p.length).length ≤ m := by
            simp only [List.length_drop, List.length_cons]
            omega
          rw [ih _ _ hlen hlen']
        · rw [if_neg hm, if_neg hm]
          simp only [List.length_cons] at h1 h2
          show c :: replaceAllF p r n s' = c :: replaceAllF p r m s'
          rw [ih s' m (by omega) (by omega)]

theorem replaceAllF_succ (p r : List Char) (fuel : Nat) (s : List Char) :
    replaceAllF p r (fuel + 1) s =
      if p ≠ [] ∧ p <+: s then
        r ++ replaceAllF p r fuel (s.drop p.length)
      else
        match s with
        | [] => []
        | c :: s' => c :: replaceAllF p r fuel s' := rfl

theorem replaceAll_pos {p r s : List Char} (hp : p ≠ []) (hpre : p <+: s) :
    replaceAll p r s = r ++ replaceAll p r (s.drop p.length) := by
  cases s with
  | nil => exact absurd (List.prefix_nil.mp hpre) hp
  | cons c s' =>
    show replaceAllF p r (s'.length + 1) (c :: s') =
      r ++ replaceAll p r ((c :: s').drop p.length)
    rw [replaceAllF_succ, if_pos ⟨hp, hpre⟩]
    unfold replaceAll
    congr 1
    apply replaceAllF_congr
    · have := List.length_pos.mpr hp
      simp only [List.length_drop, List.length_cons]
      omega
    · exact Nat.le.refl

theorem replaceAll_nil (p r : List Char) : replaceAll p r [] = [] := rfl

theorem replaceAll_neg {p s : List Char} {c : Char} (r : List Char)
    (h : ¬ (p ≠ [] ∧ p <+: (c :: s))) :
    replaceAll p r (c :: s) = c :: replaceAll p r s := by
  show replaceAllF p r (s.length + 1) (c :: s) = c :: replaceAll p r s
  rw [replaceAllF_succ, if_neg h]
  rfl

/-- The rewriter's rule list, translated from the `replacements` table of
`fix-server-imports.py` with the regex brace escapes `\x5c\x7b`, `\x5c\x7d`
resolved to the literal braces they match. -/
def replacements : List (List Char × List Char) :=
  [ ("use crate::error::Result;".toList,
     "use mcp_proxy_core::Result;".toList),
    ("use crate::error::\x7bResult, ServerError\x7d;".toList,
     "use mcp_proxy_core::\x7bResult, error::ServerError\x7d;".toList),
    ("use crate::error::\x7bProxyError, Result\x7d;".toList,
     "use mcp_proxy_core::\x7bProxyError, Result\x7d;".toList),
    ("use crate::error::HealthError;".toList,
     "use mcp_proxy_core::error::HealthError;".toList),
    ("use crate::error::ProxyError;".toList,
     "use mcp_proxy_core::ProxyError;".toList),
    ("use crate::config::ServerConfig;".toList,
     "use mcp_proxy_core::config::ServerConfig;".toList),
    ("use crate::config::Config;".toList,
     "use mcp_proxy_core::Config;".toList),
    ("use crate::config::".toList,
     "use mcp_proxy_core::config::".toList),
    ("use crate::transport::\x7bcreate_transport, Transport\x7d;".toList,
     "use mcp_proxy_core::transport::\x7bcreate_transport, Transport\x7d;".toList),
    ("use crate::transport::".toList,
     "use mcp_proxy_core::transport::".toList),
    ("use crate::protocol::\x7bmcp, JsonRpcId, JsonRpcMessage, JsonRpcV2Message\x7d;".toList,
     "use mcp_proxy_core::protocol::\x7bmcp, JsonRpcId, JsonRpcMessage, JsonRpcV2Message\x7d;".toList),
    ("use crate::protocol::".toList,
     "use mcp_proxy_core::protocol::".toList),
    ("crate::error::ProxyError".toList,
     "mcp_proxy_core::ProxyError".toList),
    ("crate::error::ConfigError".toList,
     "mcp_proxy_core::error::ConfigError".toList),
    ("crate::error::ServerError".toList,
     "mcp_proxy_core::error::ServerError".toList),
    ("crate::config::Config".toList,
     "mcp_proxy_core::Config".toList),
    ("crate::config::validate".toList,
     "mcp_proxy_core::config::validate".toList),
    ("crate::transport::pool::ConnectionPool".toList,
     "mcp_proxy_core::transport::pool::ConnectionPool".toList) ]

/-- Apply an ordered rule list to a content string, each rule by
replace-all, later rules seeing the output of earlier ones (the
`for pattern, replacement in replacements` loop of `fix_imports`). -/
def applyRules (rules : List (List Char × List Char)) (s : List Char) : List Char :=
  rules.foldl (fun acc pr => replaceAll pr.1 pr.2 acc) s

/-- One full pass of the rewriter's rule list over a file content. -/
def applyReplacements (s : List Char) : List Char :=
  applyRules replacements s

/-- Outcome of the I/O that `fix_imports` performs on one file: reading can
fail, or reading succeeds and a subsequent write (if attempted) fails, or
everything succeeds.  The `String` arguments carry the exception text. -/
inductive FileIO where
  | readErr (e : String)
  | writeErr (content : List Char) (e : String)
  | ok (content : List Char)
deriving DecidableEq

/-- Model of `fix_imports(filepath)`: returns the content written back (if
any), the boolean result (`True` exactly when the file was rewritten), and
the lines printed.  A raised read or write error is caught by the
`try/except`, logged with the file path, and turns into a `False` return.
(The on-disk residue of a failed in-place write is not modelled; no claim
depends on it.) -/
def fix_imports (path : List Char) (io : FileIO) :
    Option (List Char) × Bool × List (List Char) :=
  match io with
  | .readErr e =>
      (none, false, ["Error processing ".toList ++ path ++ ": ".toList ++ e.toList])
  | .writeErr original e =>
      let content := replacements.foldl (fun acc pr => replaceAll pr.1 pr.2 acc) original
      if content ≠ original then
        (none, false, ["Error processing ".toList ++ path ++ ": ".toList ++ e.toList])
      else
        (none, false, [])
  | .ok original =>
      let content := replacements.foldl (fun acc pr => replaceAll pr.1 pr.2 acc) original
      if content ≠ original then
        (some content, true, ["Fixed: ".toList ++ path])
      else
        (none, false, [])

/-- A file seen by `main`'s `os.walk` loop: its path and the outcome of the
I/O that touching it would produce. -/
structure SrcFile where
  name : List Char
  io : FileIO
deriving DecidableEq

/-- One iteration of `main`'s inner loop: only names ending in `.rs` are
handed to `fix_imports`; a successful write updates the file on disk.
Returns the file's final state, whether it was counted as fixed, and the
log output. -/
def processFile (f : SrcFile) : SrcFile × Bool × List (List Char) :=
  if ".rs".toList <:+ f.name then
    match fix_imports f.name f.io with
    | (some c, b, log) => (⟨f.name, .ok c⟩, b, log)
    | (none, b, log) => (f, b, log)
  else
    (f, false, [])

/-- `main`: process every walked file in order, then print the fixed count
and the `cargo fmt` banner, then invoke `cargo fmt --all` (the final `true`
records that the external command is reached unconditionally). -/
def mainRun (files : List SrcFile) :
    List SrcFile × Nat × List (List Char) × Bool :=
  let results := files.map processFile
  (results.map (fun x => x.1),
   (results.filter (fun x => x.2.1)).length,
   (results.flatMap (fun x => x.2.2)) ++
     ["\nFixed ".toList ++ (Nat.repr (results.filter (fun x => x.2.1)).length).toList
        ++ " files".toList,
      "Running cargo fmt...".toList],
   true)

/-- Strong induction on the length of a character list, used to follow the
recursion pattern of `replaceAll` (which drops `p.length` characters at a
match). -/
theorem listLengthInd {P : List Char → Prop}
    (H : ∀ s, (∀ t : List Char, t.length < s.length → P t) → P s) :
    ∀ s, P s := by
  have key : ∀ n, ∀ t : List Char, t.length ≤ n → P t := by
    intro n
    induction n with
    | zero =>
      intro t ht
      exact H t (fun u hu => absurd (Nat.lt_of_lt_of_le hu ht) (Nat.not_lt_zero _))
    | succ n ih =>
      intro t ht
      exact H t (fun u hu => ih u (Nat.le_of_lt_succ (Nat.lt_of_lt_of_le hu ht)))
  exact fun s => key s.length s Nat.le.refl

/-- A prefix of `A ++ B` either stays inside `A` or covers all of `A` and
continues as a prefix of `B`. -/
theorem prefixAppendSplit {q A B : List Char} (h : q <+: A ++ B) :
    q <+: A ∨ (A <+: q ∧ q.drop A.length <+: B) := by
  induction A generalizing q with
  | nil =>
    exact Or.inr ⟨⟨q, rfl⟩, by simpa using h⟩
  | cons a A ih =>
    match q with
    | [] => exact Or.inl ⟨a :: A, rfl⟩
    | c :: q' =>
      rw [List.cons_append] at h
      rcases List.cons_prefix_cons.mp h with ⟨rfl, h'⟩
      rcases ih h' with h1 | ⟨h2, h3⟩
      · exact Or.inl (List.cons_prefix_cons.mpr ⟨rfl, h1⟩)
      · exact Or.inr ⟨List.cons_prefix_cons.mpr ⟨rfl, h2⟩, by simpa using h3⟩

/-- A suffix of `A ++ B` is either a suffix of `B` or a nonempty suffix of
`A` followed by all of `B`. -/
theorem suffixAppendSplit {t A B : List Char} (h : t <:+ A ++ B) :
    t <:+ B ∨ ∃ A', A' <:+ A ∧ A' ≠ [] ∧ t = A' ++ B := by
  induction A with
  | nil => exact Or.inl (by simpa using h)
  | cons a A ih =>
    rw [List.cons_append] at h
    rcases List.suffix_cons_iff.mp h with h1 | h2
    · exact Or.inr ⟨a :: A, List.suffix_rfl, by simp, h1⟩
    · rcases ih h2 with h3 | ⟨A', hA', hne, rfl⟩
      · exact Or.inl h3
      · exact Or.inr ⟨A', hA'.trans (List.suffix_cons a A), hne, rfl⟩

/-- If the pattern occurs nowhere in `s`, `replaceAll` is the identity. -/
theorem replaceAll_eq_self {p s : List Char} (r : List Char) (h : ¬ p <:+: s) :
    replaceAll p r s = s := by
  induction s with
  | nil => exact replaceAll_nil p r
  | cons c s' ih =>
    have hnp : ¬ (p ≠ [] ∧ p <+: (c :: s')) := by
      rintro ⟨-, hpre⟩
      exact h hpre.isInfix
    rw [replaceAll_neg r hnp, ih (fun hcon => h (List.infix_cons hcon))]

/-- `replaceAll` never shortens the content when the replacement is at
least as long as the pattern. -/
theorem length_le_replaceAll (p r : List Char) (h : p.length ≤ r.length) :
    ∀ s : List Char, s.length ≤ (replaceAll p r s).length := by
  refine listLengthInd (P := fun s => s.length ≤ (replaceAll p r s).length) ?_
  intro s ih
  by_cases hm : p ≠ [] ∧ p <+: s
  · rw [replaceAll_pos hm.1 hm.2]
    have h1 := ih (s.drop p.length) (by
      have h2 := hm.2.length_le
      have h3 := List.length_pos.mpr hm.1
      simp only [List.length_drop]
      omega)
    have h2 := hm.2.length_le
    simp only [List.length_append, List.length_drop] at h1 ⊢
    omega
  · cases s with
    | nil => simp [replaceAll_nil]
    | cons c s' =>
      rw [replaceAll_neg r hm]
      have := ih s' (by simp)
      simp only [List.length_cons]
      omega

/-- `replaceAll` strictly lengthens the content when the pattern occurs and
the replacement is strictly longer. -/
theorem length_lt_replaceAll (p r : List Char) (hp : p ≠ []) (h : p.length < r.length) :
    ∀ s : List Char, p <:+: s → s.length < (replaceAll p r s).length := by
  refine listLengthInd (P := fun s => p <:+: s → s.length < (replaceAll p r s).length) ?_
  intro s ih hocc
  by_cases hm : p ≠ [] ∧ p <+: s
  · rw [replaceAll_pos hm.1 hm.2]
    have h1 := length_le_replaceAll p r (Nat.le_of_lt h) (s.drop p.length)
    have h2 := hm.2.length_le
    simp only [List.length_append, List.length_drop] at h1 ⊢
    omega
  · cases s with
    | nil => exact absurd (List.infix_nil.mp hocc) hp
    | cons c s' =>
      rw [replaceAll_neg r hm]
      have hocc' : p <:+: s' := by
        rcases List.infix_cons_iff.mp hocc with h1 | h2
        · exact absurd h1 (fun hcon => hm ⟨hp, hcon⟩)
        · exact h2
      have := ih s' (by simp) hocc'
      simp only [List.length_cons]
      omega

/-- Key auxiliary fact: under the three overlap conditions on replacement
`r` versus a word `q` (`q` not inside `r`, `r` not inside `q`, no nonempty
proper suffix of `q` starting a copy of `r`), any suffix `q.drop j` of `q`
that is a prefix of `replaceAll p r s` is already a prefix of `s`. -/
theorem replaceAll_drop_pre (p r q : List Char)
    (hA : ¬ q <:+: r) (hB : ¬ r <:+: q)
    (hC : ∀ i, i < q.length → 0 < i → ¬ (q.drop i <+: r)) :
    ∀ s : List Char, ∀ j, j < q.length →
      q.drop j <+: replaceAll p r s → q.drop j <+: s := by
  refine listLengthInd
    (P := fun s => ∀ j, j < q.length → q.drop j <+: replaceAll p r s → q.drop j <+: s) ?_
  intro s ih j hj hpre
  by_cases hm : p ≠ [] ∧ p <+: s
  · rw [replaceAll_pos hm.1 hm.2] at hpre
    rcases prefixAppendSplit hpre with hqr | ⟨hrq, -⟩
    · rcases Nat.eq_zero_or_pos j with rfl | hjpos
      · rw [List.drop_zero] at hqr
        exact absurd hqr.isInfix hA
      · exact absurd hqr (hC j hj hjpos)
    · have hrocc : r <:+: q :=
        List.infix_iff_prefix_suffix.mpr ⟨q.drop j, hrq, List.drop_suffix j q⟩
      exact absurd hrocc hB
  · cases s with
    | nil =>
      rw [replaceAll_nil] at hpre
      have hnil := List.drop_eq_nil_iff.mp (List.prefix_nil.mp hpre)
      omega
    | cons c s' =>
      rw [replaceAll_neg r hm] at hpre
      have hne : q.drop j ≠ [] := by
        intro hnil
        have := List.drop_eq_nil_iff.mp hnil
        omega
      rcases List.prefix_cons_iff.mp hpre with h0 | ⟨t, hqd, ht⟩
      · exact absurd h0 hne
      · have hgj : q.drop j = q[j] :: q.drop (j + 1) := List.drop_eq_getElem_cons hj
        rw [hgj] at hqd
        injection hqd with hc htt
        by_cases hj1 : j + 1 < q.length
        · have hstep := ih s' (by simp) (j + 1) hj1 (htt ▸ ht)
          rw [hgj, hc]
          exact List.cons_prefix_cons.mpr ⟨rfl, hstep⟩
        · have hnil : q.drop (j + 1) = [] := List.drop_eq_nil_iff.mpr (by omega)
          rw [hgj, hc, hnil]
          exact List.cons_prefix_cons.mpr ⟨rfl, ⟨s', rfl⟩⟩

/-- Main preservation lemma: under the four overlap conditions relating the
replacement `r` to a nonempty word `q`, every occurrence of `q` in
`replaceAll p r s` comes from an occurrence of `q` in `s`. -/
theorem replaceAll_occ_mono (p r q : List Char) (hq : q ≠ [])
    (hA : ¬ q <:+: r) (hB : ¬ r <:+: q)
    (hC : ∀ i, i < q.length → 0 < i → ¬ (q.drop i <+: r))
    (hD : ∀ i, i < q.length → 0 < i → ¬ (q.take i <:+ r)) :
    ∀ s : List Char, q <:+: replaceAll p r s → q <:+: s := by
  refine listLengthInd (P := fun s => q <:+: replaceAll p r s → q <:+: s) ?_
  intro s ih hocc
  by_cases hm : p ≠ [] ∧ p <+: s
  · rw [replaceAll_pos hm.1 hm.2] at hocc
    rcases List.infix_iff_prefix_suffix.mp hocc with ⟨t, hqt, hts⟩
    rcases suffixAppendSplit hts with h1 | ⟨r', hr', hrne, rfl⟩
    · have hlt : (s.drop p.length).length < s.length := by
        have h2 := hm.2.length_le
        have h3 := List.length_pos.mpr hm.1
        simp only [List.length_drop]
        omega
      have h4 := ih _ hlt (List.infix_iff_prefix_suffix.mpr ⟨t, hqt, h1⟩)
      exact h4.trans (List.drop_suffix _ _).isInfix
    · rcases prefixAppendSplit hqt with h2 | ⟨h3, -⟩
      · exact absurd (List.infix_iff_prefix_suffix.mpr ⟨r', h2, hr'⟩) hA
      · by_cases hlen : r'.length = q.length
        · have heq : r' = q := h3.eq_of_length hlen
          exact absurd (heq ▸ hr').isInfix hA
        · have hlt : r'.length < q.length := Nat.lt_of_le_of_ne h3.length_le hlen
          have hpos : 0 < r'.length := List.length_pos.mpr hrne
          have htake : q.take r'.length <:+ r := by
            rw [← List.prefix_iff_eq_take.mp h3]
            exact hr'
          exact absurd htake (hD r'.length hlt hpos)
  · cases s with
    | nil =>
      rw [replaceAll_nil] at hocc
      exact absurd (List.infix_nil.mp hocc) hq
    | cons c s' =>
      rw [replaceAll_neg r hm] at hocc
      rcases List.infix_cons_iff.mp hocc with h1 | h2
      · rcases List.prefix_cons_iff.mp h1 with h0 | ⟨t, rfl, ht⟩
        · exact absurd h0 hq
        · by_cases ht0 : t = []
          · subst ht0
            exact (List.cons_prefix_cons.mpr ⟨rfl, ⟨s', rfl⟩⟩ :
              [c] <+: c :: s').isInfix
          · have hlen1 : 1 < (c :: t).length := by
              have := List.length_pos.mpr ht0
              simp only [List.length_cons]
              omega
            have hdrop : (c :: t).drop 1 = t := rfl
            have hstep := replaceAll_drop_pre p r (c :: t) hA hB hC s' 1 hlen1
              (hdrop ▸ ht)
            rw [hdrop] at hstep
            exact (List.cons_prefix_cons.mpr ⟨rfl, hstep⟩ :
              c :: t <+: c :: s').isInfix
      · exact List.infix_cons (ih s' (by simp) h2)

/-- Elimination lemma: under the four overlap conditions for the pattern
itself, the output of `replaceAll p r s` contains no occurrence of `p`
at all. -/
theorem replaceAll_no_self_occ (p r : List Char) (hp : p ≠ [])
    (hA : ¬ p <:+: r) (hB : ¬ r <:+: p)
    (hC : ∀ i, i < p.length → 0 < i → ¬ (p.drop i <+: r))
    (hD : ∀ i, i < p.length → 0 < i → ¬ (p.take i <:+ r)) :
    ∀ s : List Char, ¬ p <:+: replaceAll p r s := by
  refine listLengthInd (P := fun s => ¬ p <:+: replaceAll p r s) ?_
  intro s ih hocc
  by_cases hm : p ≠ [] ∧ p <+: s
  · rw [replaceAll_pos hm.1 hm.2] at hocc
    rcases List.infix_iff_prefix_suffix.mp hocc with ⟨t, hqt, hts⟩
    rcases suffixAppendSplit hts with h1 | ⟨r', hr', hrne, rfl⟩
    · have hlt : (s.drop p.length).length < s.length := by
        have h2 := hm.2.length_le
        have h3 := List.length_pos.mpr hm.1
        simp only [List.length_drop]
        omega
      exact ih _ hlt (List.infix_iff_prefix_suffix.mpr ⟨t, hqt, h1⟩)
    · rcases prefixAppendSplit hqt with h2 | ⟨h3, -⟩
      · exact hA (List.infix_iff_prefix_suffix.mpr ⟨r', h2, hr'⟩)
      · by_cases hlen : r'.length = p.length
        · exact hA ((h3.eq_of_length hlen ▸ hr').isInfix)
        · have hlt : r'.length < p.length := Nat.lt_of_le_of_ne h3.length_le hlen
          have hpos : 0 < r'.length := List.length_pos.mpr hrne
          have htake : p.take r'.length <:+ r := by
            rw [← List.prefix_iff_eq_take.mp h3]
            exact hr'
          exact hD r'.length hlt hpos htake
  · cases s with
    | nil =>
      rw [replaceAll_nil] at hocc
      exact hp (List.infix_nil.mp hocc)
    | cons c s' =>
      rw [replaceAll_neg r hm] at hocc
      have hnp : ¬ p <+: (c :: s') := fun hcon => hm ⟨hp, hcon⟩
      rcases List.infix_cons_iff.mp hocc with h1 | h2
      · rcases List.prefix_cons_iff.mp h1 with h0 | ⟨t, hpt, ht⟩
        · exact hp h0
        · subst hpt
          by_cases ht0 : t = []
          · subst ht0
            exact hnp (List.cons_prefix_cons.mpr ⟨rfl, ⟨s', rfl⟩⟩)
          · have hlen1 : 1 < (c :: t).length := by
              have := List.length_pos.mpr ht0
              simp only [List.length_cons]
              omega
            have hdrop : (c :: t).drop 1 = t := rfl
            have hstep := replaceAll_drop_pre (c :: t) r (c :: t) hA hB hC s' 1 hlen1
              (hdrop ▸ ht)
            rw [hdrop] at hstep
            exact hnp (List.cons_prefix_cons.mpr ⟨rfl, hstep⟩)
      · exact ih s' (by simp) h2

/-- The four non-overlap conditions between a replacement text `r` and a
word `q`: `q` does not occur in `r`, `r` does not occur in `q`, no nonempty
proper suffix of `q` is a prefix of `r`, and no nonempty proper prefix of
`q` is a suffix of `r`.  Together they guarantee that substituting `r`
anywhere can neither contain nor help assemble a new occurrence of `q`. -/
def Conds (r q : List Char) : Prop :=
  ¬ q <:+: r ∧ ¬ r <:+: q ∧
  (∀ i, i < q.length → 0 < i → ¬ (q.drop i <+: r)) ∧
  (∀ i, i < q.length → 0 < i → ¬ (q.take i <:+ r))

instance condsDecidable (r q : List Char) : Decidable (Conds r q) := by
  unfold Conds
  infer_instance

/-- Well-formedness of an ordered rule list: every pattern is nonempty, no
replacement can recreate its own rule's pattern, and no later replacement
can recreate an earlier rule's pattern. -/
def GoodList : List (List Char × List Char) → Prop
  | [] => True
  | (p, r) :: rest => p ≠ [] ∧ Conds r p ∧ (∀ pr ∈ rest, Conds pr.2 p) ∧ GoodList rest

instance goodListDecidable : (L : List (List Char × List Char)) → Decidable (GoodList L)
  | [] => .isTrue trivial
  | (p, r) :: rest =>
    haveI := goodListDecidable rest
    show Decidable (p ≠ [] ∧ Conds r p ∧ (∀ pr ∈ rest, Conds pr.2 p) ∧ GoodList rest) from
      inferInstance

/-- Running a rule list whose replacements all satisfy the non-overlap
conditions against `q` cannot introduce an occurrence of `q`. -/
theorem applyRules_preserve_no_occ {q : List Char} (hq : q ≠ []) :
    ∀ L : List (List Char × List Char), (∀ pr ∈ L, Conds pr.2 q) →
      ∀ t : List Char, ¬ q <:+: t → ¬ q <:+: applyRules L t := by
  intro L
  induction L with
  | nil =>
    intro _ t ht
    exact ht
  | cons pr rest ih =>
    intro hcond t ht
    obtain ⟨hA, hB, hC, hD⟩ := hcond pr (List.mem_cons_self pr rest)
    have step : ¬ q <:+: replaceAll pr.1 pr.2 t := fun hocc =>
      ht (replaceAll_occ_mono pr.1 pr.2 q hq hA hB hC hD t hocc)
    have hrest := ih (fun x hx => hcond x (List.mem_cons_of_mem pr hx)) _ step
    simpa [applyRules] using hrest

/-- After one full pass of a well-formed rule list, none of its patterns
occurs anywhere in the result. -/
theorem applyRules_no_pattern_occ :
    ∀ L : List (List Char × List Char), GoodList L →
      ∀ s : List Char, ∀ pr ∈ L, ¬ pr.1 <:+: applyRules L s := by
  intro L
  induction L with
  | nil =>
    intro _ s pr hpr
    exact absurd hpr (List.not_mem_nil pr)
  | cons hd rest ih =>
    obtain ⟨p, r⟩ := hd
    intro hgood s pr hpr
    obtain ⟨hp, ⟨hA, hB, hC, hD⟩, hlater, hgoodRest⟩ := hgood
    rcases List.mem_cons.mp hpr with rfl | hmem
    · have h1 : ¬ p <:+: replaceAll p r s :=
        replaceAll_no_self_occ p r hp hA hB hC hD s
      have h2 := applyRules_preserve_no_occ hp rest hlater _ h1
      simpa [applyRules] using h2
    · have h3 := ih hgoodRest (replaceAll p r s) pr hmem
      simpa [applyRules] using h3

/-- A rule list none of whose patterns occurs in `t` leaves `t` unchanged. -/
theorem applyRules_eq_self :
    ∀ L : List (List Char × List Char), ∀ t : List Char,
      (∀ pr ∈ L, ¬ pr.1 <:+: t) → applyRules L t = t := by
  intro L
  induction L with
  | nil => intro t _; rfl
  | cons pr rest ih =>
    intro t h
    have h1 : replaceAll pr.1 pr.2 t = t :=
      replaceAll_eq_self pr.2 (h pr (List.mem_cons_self pr rest))
    calc applyRules (pr :: rest) t
        = applyRules rest (replaceAll pr.1 pr.2 t) := by simp [applyRules]
      _ = applyRules rest t := by rw [h1]
      _ = t := ih t (fun x hx => h x (List.mem_cons_of_mem pr hx))

/-- A second pass of a well-formed rule list is the identity. -/
theorem applyRules_idem {L : List (List Char × List Char)} (hgood : GoodList L)
    (s : List Char) : applyRules L (applyRules L s) = applyRules L s :=
  applyRules_eq_self L _ (fun pr hpr => applyRules_no_pattern_occ L hgood s pr hpr)

set_option maxRecDepth 100000 in
/-- The rewriter's concrete rule list is well-formed: no replacement text
contains, or can help reassemble, the pattern of its own rule or of any
earlier rule. -/
theorem replacements_good : GoodList replacements := by decide

/-- Unfolding equation for the success path of `fix_imports`: the file is
rewritten (and reported fixed) exactly when the substituted content differs
from the original. -/
theorem fix_imports_ok_eq (path content : List Char) :
    fix_imports path (.ok content) =
      if applyReplacements content ≠ content
      then (some (applyReplacements content), true, ["Fixed: ".toList ++ path])
      else (none, false, []) := rfl

/-- C1: a successfully read file is overwritten and counted as fixed iff
applying all substitution rules in order changes its content; when the
result equals the original, nothing is written, nothing logged and the file
is not counted. -/
theorem rewriter_write_iff_changed (path content : List Char) :
    ((fix_imports path (.ok content)).1 = some (applyReplacements content) ∧
        (fix_imports path (.ok content)).2.1 = true ↔
      applyReplacements content ≠ content) ∧
    (fix_imports path (.ok content) = (none, false, []) ↔
      applyReplacements content = content) := by
  rw [fix_imports_ok_eq]
  by_cases h : applyReplacements content = content
  · rw [if_neg (by simp [h])]
    constructor
    · simp [h]
    · simp [h]
  · rw [if_pos h]
    constructor
    · simp [h]
    · simp [h]

/-- C3: one full pass of the rewriter's rule list is idempotent — applying
the rules to an already-rewritten content returns it unchanged, so a second
pass reports the file as not fixed. -/
theorem rewriter_pass_idempotent (path s : List Char) :
    applyReplacements (applyReplacements s) = applyReplacements s ∧
    fix_imports path (.ok (applyReplacements s)) = (none, false, []) := by
  have h : applyReplacements (applyReplacements s) = applyReplacements s :=
    applyRules_idem replacements_good s
  refine ⟨h, ?_⟩
  rw [fix_imports_ok_eq, if_neg (by simp [h])]

theorem applyRules_cons (pr : List Char × List Char) (L : List (List Char × List Char))
    (s : List Char) :
    applyRules (pr :: L) s = applyRules L (replaceAll pr.1 pr.2 s) := rfl

theorem replacements_split :
    replacements = ("use crate::error::Result;".toList,
      "use mcp_proxy_core::Result;".toList) :: replacements.tail := rfl

set_option maxRecDepth 100000 in
/-- The non-overlap conditions also hold between the first rule's
replacement text and every later rule's pattern. -/
theorem replacements_tail_conds : ∀ pr ∈ replacements.tail,
    Conds ("use mcp_proxy_core::Result;".toList) pr.1 := by decide

set_option maxRecDepth 100000 in
/-- Every pattern of the rule list's tail is nonempty. -/
theorem replacements_tail_ne : ∀ pr ∈ replacements.tail, pr.1 ≠ [] := by decide

/-- C4: on a file containing the line `use crate::error::Result;` and
matching no other rule, the pass is exactly the replace-all of that one
rule, the file is rewritten and reported fixed, and a run over just that
file counts a fixed total of 1. -/
theorem rewriter_single_rule_file (path content : List Char)
    (h1 : "use crate::error::Result;".toList <:+: content)
    (h2 : ∀ pr ∈ replacements.tail, ¬ pr.1 <:+: content)
    (h3 : ".rs".toList <:+ path) :
    applyReplacements content =
      replaceAll "use crate::error::Result;".toList
        "use mcp_proxy_core::Result;".toList content ∧
    fix_imports path (.ok content) =
      (some (applyReplacements content), true, ["Fixed: ".toList ++ path]) ∧
    (mainRun [⟨path, .ok content⟩]).2.1 = 1 := by
  have hconds := replacements_tail_conds
  have hne := replacements_tail_ne
  have hstep : applyReplacements content
      = applyRules replacements.tail
          (replaceAll "use crate::error::Result;".toList
            "use mcp_proxy_core::Result;".toList content) := by
    show applyRules replacements content = _
    rw [replacements_split, applyRules_cons]
    rfl
  have habsent : ∀ pr ∈ replacements.tail,
      ¬ pr.1 <:+: replaceAll "use crate::error::Result;".toList
        "use mcp_proxy_core::Result;".toList content := by
    intro pr hpr hocc
    obtain ⟨hA, hB, hC, hD⟩ := hconds pr hpr
    exact h2 pr hpr (replaceAll_occ_mono _ _ pr.1 (hne pr hpr) hA hB hC hD content hocc)
  have heq : applyReplacements content
      = replaceAll "use crate::error::Result;".toList
          "use mcp_proxy_core::Result;".toList content := by
    rw [hstep, applyRules_eq_self _ _ habsent]
  have hlen : content.length <
      (replaceAll "use crate::error::Result;".toList
        "use mcp_proxy_core::Result;".toList content).length :=
    length_lt_replaceAll _ _ (by decide) (by decide) content h1
  have hdiff : applyReplacements content ≠ content := by
    rw [heq]
    intro hcon
    rw [hcon] at hlen
    exact Nat.lt_irrefl _ hlen
  have hfix : fix_imports path (.ok content) =
      (some (applyReplacements content), true, ["Fixed: ".toList ++ path]) := by
    rw [fix_imports_ok_eq, if_pos hdiff]
  refine ⟨heq, hfix, ?_⟩
  have hproc : processFile ⟨path, .ok content⟩ =
      (⟨path, .ok (applyReplacements content)⟩, true, ["Fixed: ".toList ++ path]) := by
    unfold processFile
    rw [if_pos h3, hfix]
  simp [mainRun, hproc]

set_option maxRecDepth 100000 in
/-- Witness for C4 at the concrete file `lib.rs` containing exactly the
line `use crate::error::Result;`. -/
theorem rewriter_single_rule_file_witness :
    ("use crate::error::Result;".toList <:+: "use crate::error::Result;\n".toList) ∧
    (∀ pr ∈ replacements.tail, ¬ pr.1 <:+: "use crate::error::Result;\n".toList) ∧
    (".rs".toList <:+ "lib.rs".toList) ∧
    (applyReplacements "use crate::error::Result;\n".toList =
        replaceAll "use crate::error::Result;".toList
          "use mcp_proxy_core::Result;".toList "use crate::error::Result;\n".toList ∧
      fix_imports "lib.rs".toList (.ok "use crate::error::Result;\n".toList) =
        (some (applyReplacements "use crate::error::Result;\n".toList), true,
          ["Fixed: ".toList ++ "lib.rs".toList]) ∧
      (mainRun [⟨"lib.rs".toList, .ok "use crate::error::Result;\n".toList⟩]).2.1 = 1) :=
  ⟨by decide, by decide, by decide,
    rewriter_single_rule_file _ _ (by decide) (by decide) (by decide)⟩

/-- A file whose read raises is reported not fixed, left as it is, and its
error is logged with the file path. -/
theorem processFile_read_err (path : List Char) (e : String) :
    processFile ⟨path, .readErr e⟩ =
      (⟨path, .readErr e⟩, false,
        if ".rs".toList <:+ path
        then ["Error processing ".toList ++ path ++ ": ".toList ++ e.toList]
        else []) := by
  unfold processFile fix_imports
  split
  · rfl
  · rfl

/-- Unfolding equation for the write-error path of `fix_imports`: the
caught exception (which is only raised when a write is attempted, i.e. when
the substituted content differs) is logged with the file path, and the file
is reported not fixed either way. -/
theorem fix_imports_writeErr_eq (path c : List Char) (e : String) :
    fix_imports path (.writeErr c e) =
      if applyReplacements c ≠ c
      then (none, false,
        ["Error processing ".toList ++ path ++ ": ".toList ++ e.toList])
      else (none, false, []) := rfl

/-- C5: a per-file read or write error is caught: `fix_imports` returns
`False` with the path logged, the file is excluded from the fixed count,
and every other file of the run is still processed exactly as before. -/
theorem rewriter_error_isolated (path : List Char) (e : String) (c : List Char)
    (xs ys : List SrcFile) :
    fix_imports path (.readErr e) =
      (none, false, ["Error processing ".toList ++ path ++ ": ".toList ++ e.toList]) ∧
    fix_imports path (.writeErr c e) =
      (if applyReplacements c ≠ c
       then (none, false,
         ["Error processing ".toList ++ path ++ ": ".toList ++ e.toList])
       else (none, false, [])) ∧
    (mainRun (xs ++ ⟨path, .readErr e⟩ :: ys)).1 =
      (mainRun xs).1 ++ ⟨path, .readErr e⟩ :: (mainRun ys).1 ∧
    (mainRun (xs ++ ⟨path, .readErr e⟩ :: ys)).2.1 =
      (mainRun xs).2.1 + (mainRun ys).2.1 := by
  refine ⟨rfl, fix_imports_writeErr_eq path c e, ?_, ?_⟩
  · simp [mainRun, processFile_read_err]
  · simp [mainRun, processFile_read_err, List.filter_append]

/-- C6: a file whose name does not end in `.rs` is never handed to
`fix_imports`: whatever reading it would have produced, it is returned
untouched, not counted, and nothing is logged. -/
theorem rewriter_non_rs_untouched (name : List Char) (io : FileIO)
    (h : ¬ (".rs".toList <:+ name)) :
    processFile ⟨name, io⟩ = (⟨name, io⟩, false, []) := by
  unfold processFile
  rw [if_neg h]

/-- Witness for C6 at a concrete non-`.rs` file. -/
theorem rewriter_non_rs_untouched_witness :
    ¬ (".rs".toList <:+ "main.py".toList) ∧
    processFile ⟨"main.py".toList, .ok "use crate::config::Config;".toList⟩ =
      (⟨"main.py".toList, .ok "use crate::config::Config;".toList⟩, false, []) :=
  ⟨by decide, rewriter_non_rs_untouched _ _ (by decide)⟩

/-- C10: on an empty walk (the scan root is missing — `os.walk` then yields
nothing — or holds no files), `main` completes normally, prints a fixed
count of 0, and still reaches the `cargo fmt --all` invocation. -/
theorem rewriter_empty_walk :
    mainRun [] =
      ([], 0, ["\nFixed 0 files".toList, "Running cargo fmt...".toList], true) := by
  decide

end ImportRewriter

namespace SmokeTester

mutual

/-- The JSON values built by `test-direct-mcp.py`: strings, integers and
objects whose fields keep their insertion order (Python dicts preserve it,
and `json.dumps` serialises in that order). -/
inductive Json where
  | str : String → Json
  | num : Int → Json
  | obj : JsonFields → Json
deriving DecidableEq

/-- An ordered association list of object fields. -/
inductive JsonFields where
  | nil : JsonFields
  | fcons : String → Json → JsonFields → JsonFields
deriving DecidableEq

end

mutual

/-- Python's `json.dumps` with its default separators `", "` and `": "`,
modelled for the escape-free ASCII strings this script serialises (none of
its keys or values needs character escaping). -/
def dumps : Json → String
  | .str s => "\"" ++ s ++ "\""
  | .num n => toString n
  | .obj fs => "\x7b" ++ dumpsFields fs ++ "\x7d"

def dumpsFields : JsonFields → String
  | .nil => ""
  | .fcons k v .nil => "\"" ++ k ++ "\": " ++ dumps v
  | .fcons k v rest => "\"" ++ k ++ "\": " ++ dumps v ++ ", " ++ dumpsFields rest

end

/-- The whitespace characters stripped by Python's `str.strip()`. -/
def isPySpace (c : Char) : Bool :=
  c = ' ' || c = '\t' || c = '\n' || c = '\r' || c = '\x0b' || c = '\x0c'

/-- Python's `str.strip()`: remove leading and trailing whitespace. -/
def pyStrip (s : String) : String :=
  ⟨((s.toList.dropWhile isPySpace).reverse.dropWhile isPySpace).reverse⟩

/-- The `initialize` request literal of `test_mcp_server`. -/
def initialize_request : Json :=
  .obj (.fcons "jsonrpc" (.str "2.0")
    (.fcons "id" (.num 1)
      (.fcons "method" (.str "initialize")
        (.fcons "params" (.obj
          (.fcons "protocolVersion" (.str "0.1.0")
            (.fcons "capabilities" (.obj .nil)
              (.fcons "clientInfo" (.obj
                (.fcons "name" (.str "test-client")
                  (.fcons "version" (.str "0.1.0") .nil)))
                .nil))))
          .nil))))

/-- The `initialized` notification literal of `test_mcp_server`. -/
def initialized_notification : Json :=
  .obj (.fcons "jsonrpc" (.str "2.0")
    (.fcons "method" (.str "initialized")
      (.fcons "params" (.obj .nil) .nil)))

/-- The `ping` request literal of `test_mcp_server`. -/
def ping_request : Json :=
  .obj (.fcons "jsonrpc" (.str "2.0")
    (.fcons "id" (.num 2)
      (.fcons "method" (.str "ping")
        (.fcons "params" (.obj .nil) .nil))))

/-- An observable action of the script: a console print, or an operation on
the spawned subprocess (write to stdin, flush, blocking line read from
stdout, stdin close, terminate, wait). -/
inductive Event where
  | print (s : String)
  | writeStdin (s : String)
  | flushStdin
  | readStdout (line : String)
  | closeStdin
  | terminate
  | wait
deriving DecidableEq

/-- The complete ordered action trace of `test_mcp_server(command, args)`,
given the subprocess's stdout as a list of lines (each `readline` returns
the next line, or `""` at end of stream).  It is a straight-line script:
print banner, send `initialize` and read/print one line, send the
`initialized` notification with no read, send `ping` and read/print one
line, then close stdin, terminate and wait. -/
def test_mcp_server (command : String) ( _args : List String)
    (outputLines : List String) : List Event :=
  let response1 := outputLines.headD ""
  let response2 := (outputLines.drop 1).headD ""
  [ .print ("Testing MCP server: " ++ command),
    .print "Sending initialize...",
    .writeStdin (dumps initialize_request ++ "\n"),
    .flushStdin,
    .readStdout response1,
    .print ("Initialize response: " ++ pyStrip response1),
    .print "Sending initialized notification...",
    .writeStdin (dumps initialized_notification ++ "\n"),
    .flushStdin,
    .print "Sending ping...",
    .writeStdin (dumps ping_request ++ "\n"),
    .flushStdin,
    .readStdout response2,
    .print ("Ping response: " ++ pyStrip response2),
    .closeStdin,
    .terminate,
    .wait ]

/-- The subsequence of actions observable by the subprocess (everything but
console prints). -/
def procActions (events : List Event) : List Event :=
  events.filter fun e =>
    match e with
    | .print _ => false
    | _ => true

/-- The lines written to the subprocess's stdin, in order. -/
def stdinWrites (events : List Event) : List String :=
  events.filterMap fun e =>
    match e with
    | .writeStdin s => some s
    | _ => none

/-- The lines printed to the console, in order. -/
def printedLines (events : List Event) : List String :=
  events.filterMap fun e =>
    match e with
    | .print s => some s
    | _ => none

/-- Field lookup in serialisation order. -/
def fieldsLookup : JsonFields → String → Option Json
  | .nil, _ => none
  | .fcons k v rest, key => if k == key then some v else fieldsLookup rest key

/-- The integer `id` of a message, when it has one. -/
def jsonId : Json → Option Int
  | .obj fs =>
      match fieldsLookup fs "id" with
      | some (.num n) => some n
      | _ => none
  | _ => none

/-- A JSON-RPC request object: exactly the fields `jsonrpc = "2.0"`, an
integer `id`, a string `method`, and an object `params`, in that order. -/
def isRequestShape : Json → Bool
  | .obj (.fcons k1 (.str v) (.fcons k2 (.num _) (.fcons k3 (.str _)
      (.fcons k4 (.obj _) .nil)))) =>
      k1 == "jsonrpc" && v == "2.0" && k2 == "id" && k3 == "method" && k4 == "params"
  | _ => false

/-- A JSON-RPC notification object: the same shape with no `id` field and
empty `params`. -/
def isNotificationShape : Json → Bool
  | .obj (.fcons k1 (.str v) (.fcons k2 (.str _) (.fcons k3 (.obj .nil) .nil))) =>
      k1 == "jsonrpc" && v == "2.0" && k2 == "method" && k3 == "params"
  | _ => false

/-- C2: in every run — whatever the subprocess answers — the script
performs exactly this ordered sequence of subprocess-visible actions:
write the `initialize` line (id 1) and flush, read one line; write the
`initialized` notification line and flush with no read; write the `ping`
line (id 2) and flush, read one line; then close stdin, terminate, wait. -/
theorem tester_action_sequence (command : String) (args outputLines : List String) :
    procActions (test_mcp_server command args outputLines) =
      [ .writeStdin (dumps initialize_request ++ "\n"), .flushStdin,
        .readStdout (outputLines.headD ""),
        .writeStdin (dumps initialized_notification ++ "\n"), .flushStdin,
        .writeStdin (dumps ping_request ++ "\n"), .flushStdin,
        .readStdout ((outputLines.drop 1).headD ""),
        .closeStdin, .terminate, .wait ] ∧
    jsonId initialize_request = some 1 ∧
    jsonId ping_request = some 2 ∧
    jsonId initialized_notification = none :=
  ⟨rfl, rfl, rfl, rfl⟩

/-- C7: every line the script writes to the subprocess is the
serialisation of a JSON object that is either a well-formed request
(`jsonrpc = "2.0"`, integer id, method string, params object — exactly
those fields) or a well-formed notification (same without id, empty
params), terminated by a newline. -/
theorem tester_wire_format (command : String) (args outputLines : List String)
    (s : String) (h : Event.writeStdin s ∈ test_mcp_server command args outputLines) :
    ∃ j : Json, s = dumps j ++ "\n" ∧
      (isRequestShape j = true ∨ isNotificationShape j = true) := by
  simp [test_mcp_server] at h
  rcases h with h|h|h
  · exact ⟨initialize_request, h, Or.inl (by decide)⟩
  · exact ⟨initialized_notification, h, Or.inr (by decide)⟩
  · exact ⟨ping_request, h, Or.inl (by decide)⟩

/-- Witness for C7 at the initialize write of a concrete run. -/
theorem tester_wire_format_witness :
    (Event.writeStdin (dumps initialize_request ++ "\n") ∈
        test_mcp_server "srv" [] []) ∧
    ∃ j : Json, dumps initialize_request ++ "\n" = dumps j ++ "\n" ∧
      (isRequestShape j = true ∨ isNotificationShape j = true) :=
  ⟨by decide, tester_wire_format "srv" [] [] _ (by decide)⟩

/-- The canned reply the spec's stub subprocess sends to the initialize
request. -/
def stubLine1 : String := "\x7b\"jsonrpc\":\"2.0\",\"id\":1,\"result\":\x7b\x7d\x7d"

/-- The stub's second canned reply, consumed after the ping request. -/
def stubLine2 : String := "\x7b\"jsonrpc\":\"2.0\",\"id\":2,\"result\":\x7b\x7d\x7d"

/-- Counterexample to C8 as stated: in the stub scenario the console output
never contains the raw response line by itself — no printed line equals
`stubLine1`, because every response is printed behind a fixed prefix. -/
theorem tester_echo_counterexample :
    ¬ stubLine1 ∈ printedLines
      (test_mcp_server "stub" [] [stubLine1 ++ "\n", stubLine2 ++ "\n"]) := by
  decide

/-- C8 (amended): each response line is printed with the fixed prefix
`Initialize response: ` resp. `Ping response: ` and surrounding whitespace
stripped; the response text itself is echoed verbatim and unparsed inside
that line — in the stub scenario the two prints carry exactly
`stubLine1` and `stubLine2` after their prefixes. -/
theorem tester_echo_prefixed (command : String) (args outputLines : List String) :
    printedLines (test_mcp_server command args outputLines) =
      [ "Testing MCP server: " ++ command,
        "Sending initialize...",
        "Initialize response: " ++ pyStrip (outputLines.headD ""),
        "Sending initialized notification...",
        "Sending ping...",
        "Ping response: " ++ pyStrip ((outputLines.drop 1).headD "") ] ∧
    printedLines (test_mcp_server "stub" [] [stubLine1 ++ "\n", stubLine2 ++ "\n"]) =
      [ "Testing MCP server: stub",
        "Sending initialize...",
        "Initialize response: " ++ stubLine1,
        "Sending initialized notification...",
        "Sending ping...",
        "Ping response: " ++ stubLine2 ] :=
  ⟨rfl, by decide⟩

/-- C9: the bytes written to the subprocess's stdin are a fixed
three-message script, identical in content and order across any two runs,
whatever the subprocess answers — no response influences any write. -/
theorem tester_writes_response_independent (command command' : String)
    (args args' outputLines outputLines' : List String) :
    stdinWrites (test_mcp_server command args outputLines) =
      stdinWrites (test_mcp_server command' args' outputLines') ∧
    stdinWrites (test_mcp_server command args outputLines) =
      [ dumps initialize_request ++ "\n",
        dumps initialized_notification ++ "\n",
        dumps ping_request ++ "\n" ] :=
  ⟨rfl, rfl⟩

end SmokeTester
